import Mathlib

/-!
Verification of the density-plotting code cell of
`notes/AdvancedSampling.ipynb`.  The cell is

  xx = np.arange(-10., 10., 0.1)
  plt.plot(xx, scipy.stats.norm.pdf(xx));
  yy = np.sqrt(scipy.stats.norm.pdf(xx))
  yy = yy / (np.sum(yy)*0.1)
  plt.plot(xx, yy);

The grid and the two plotted curves are embedded over the real numbers:
`curveA` is the standard normal density sampled on the grid (the first
plotted curve), and `yy` is the square-root-reweighted curve after the
normalization step (the second plotted curve, "curve B").
-/

namespace AdvancedSampling

/-- Number of points of `np.arange(-10., 10., 0.1)`.  `np.arange` produces
`ceil((stop - start) / step)` points; here that count is computed in exact
arithmetic. -/
def arangeLen : ℕ := ⌈(((10 : ℚ) - (-10)) / (1 / 10) : ℚ)⌉₊

/-- The grid `xx = np.arange(-10., 10., 0.1)`: point `i` is
`start + step * i`. -/
noncomputable def xx (i : ℕ) : ℝ := -10 + 0.1 * i

/-- The library call `scipy.stats.norm.pdf` with its default parameters
(mean 0, standard deviation 1): the standard normal density. -/
noncomputable def norm_pdf (x : ℝ) : ℝ := Real.exp (-(x ^ 2) / 2) / Real.sqrt (2 * Real.pi)

/-- Curve A of the cell: `scipy.stats.norm.pdf(xx)`. -/
noncomputable def curveA (i : ℕ) : ℝ := norm_pdf (xx i)

/-- The first assignment `yy = np.sqrt(scipy.stats.norm.pdf(xx))`:
curve B before its normalization. -/
noncomputable def yy0 (i : ℕ) : ℝ := Real.sqrt (norm_pdf (xx i))

/-- The divisor `np.sum(yy) * 0.1` used by the normalization step. -/
noncomputable def normConst : ℝ := (∑ i ∈ Finset.range arangeLen, yy0 i) * 0.1

/-- The reassignment `yy = yy / (np.sum(yy)*0.1)`: curve B as plotted. -/
noncomputable def yy (i : ℕ) : ℝ := yy0 i / normConst

/-- The whole code cell viewed as a function of its (empty) input: it
returns the two curves handed to `plt.plot`. -/
noncomputable def computeCell (_ : Unit) : (ℕ → ℝ) × (ℕ → ℝ) := (curveA, yy)

/-! Integer bounds for the Riemann sums.  `Real.exp` is bounded through
`(1 - a/m)^m ≤ exp (-a) ≤ (1 - a/m + (a/m)^2/2)^m` for `0 ≤ a ≤ m`; with
`a = (i-100)^2/200` those m-th powers have a common integer denominator
over the whole grid, so each Riemann-sum bound reduces to one integer
inequality that the kernel checks by computation. -/

def sqZ (x : ℤ) : ℤ := x * x

def pw16 (x : ℤ) : ℤ := sqZ (sqZ (sqZ (sqZ x)))

def pw64 (x : ℤ) : ℤ := sqZ (sqZ (pw16 x))

def pw1024 (x : ℤ) : ℤ := pw16 (pw64 x)

/-- Numerator of the per-point lower bound `(1 - a_i/1024)^1024` for
`exp (-a_i)`, `a_i = (i-100)^2/200`, over the common denominator
`204800^1024`. -/
def lo5 (i : ℕ) : ℤ := pw1024 (204800 - sqZ ((i : ℤ) - 100))

def lo5Sum : ℕ → ℤ
  | 0 => 0
  | n + 1 => lo5Sum n + lo5 n

/-- Numerator of the per-point upper bound `(1 - t_i + t_i^2/2)^64` for
`exp (-a_i)`, `t_i = a_i/64 = (i-100)^2/12800`, over the common
denominator `327680000^64`. -/
def hi5 (i : ℕ) : ℤ :=
  pw64 (327680000 - 25600 * sqZ ((i : ℤ) - 100) + sqZ (sqZ ((i : ℤ) - 100)))

def hi5Sum : ℕ → ℤ
  | 0 => 0
  | n + 1 => hi5Sum n + hi5 n

/-- Numerator of the per-point lower bound `(1 - b_i/16)^16` for
`exp (-b_i)`, `b_i = (i-100)^2/400`, over the common denominator
`6400^16`; it is summed over the central grid window `70 ≤ i ≤ 130`. -/
def lo10 (i : ℕ) : ℤ := pw16 (6400 - sqZ ((i : ℤ) - 100))

def lo10Sum : ℕ → ℤ
  | 0 => 0
  | n + 1 => lo10Sum n + lo10 (70 + n)

/-! Basic facts about the embedded definitions. -/

lemma arangeLen_eq : arangeLen = 200 := by norm_num [arangeLen]

lemma sqrt_two_pi_pos : 0 < Real.sqrt (2 * Real.pi) :=
  Real.sqrt_pos.mpr (by positivity)

lemma norm_pdf_pos (x : ℝ) : 0 < norm_pdf x :=
  div_pos (Real.exp_pos _) sqrt_two_pi_pos

lemma curveA_pos (i : ℕ) : 0 < curveA i := norm_pdf_pos (xx i)

lemma yy0_pos (i : ℕ) : 0 < yy0 i := Real.sqrt_pos.mpr (norm_pdf_pos (xx i))

lemma normConst_pos : 0 < normConst := by
  have h : 0 < ∑ i ∈ Finset.range arangeLen, yy0 i :=
    Finset.sum_pos (fun i _ => yy0_pos i)
      ⟨0, Finset.mem_range.mpr (by rw [arangeLen_eq]; norm_num)⟩
  have h1 : (0 : ℝ) < 0.1 := by norm_num
  exact mul_pos h h1

lemma xx_100 : xx 100 = 0 := by norm_num [xx]

lemma curveA_100 : curveA 100 = 1 / Real.sqrt (2 * Real.pi) := by
  unfold curveA norm_pdf
  rw [xx_100]
  norm_num

lemma curveA_le_peak (i : ℕ) : curveA i ≤ curveA 100 := by
  rw [curveA_100]
  unfold curveA norm_pdf
  have h1 : Real.exp (-(xx i ^ 2) / 2) ≤ 1 :=
    Real.exp_le_one_iff.mpr (by nlinarith [sq_nonneg (xx i)])
  exact (div_le_div_iff_of_pos_right sqrt_two_pi_pos).mpr h1

lemma sqrt_two_pi_lt : Real.sqrt (2 * Real.pi) < 2.50664 := by
  rw [Real.sqrt_lt' (by norm_num)]
  nlinarith [Real.pi_lt_d6]

lemma lt_sqrt_two_pi : 2.506627 < Real.sqrt (2 * Real.pi) := by
  rw [Real.lt_sqrt (by norm_num)]
  nlinarith [Real.pi_gt_d6]

/-! Claims. -/

/-- C1: curve B is `sqrt(norm_pdf x)` at every grid point divided by
`(sum of curve B values) * 0.1`, and after this normalization
`sum(curveB) * 0.1` equals 1. -/
theorem c1_curveB_normalized :
    (∀ i : ℕ, yy i = Real.sqrt (norm_pdf (xx i)) /
      ((∑ j ∈ Finset.range arangeLen, Real.sqrt (norm_pdf (xx j))) * 0.1)) ∧
    (∑ i ∈ Finset.range arangeLen, yy i) * 0.1 = 1 := by
  constructor
  · intro i; rfl
  · have hS : normConst ≠ 0 := ne_of_gt normConst_pos
    calc (∑ i ∈ Finset.range arangeLen, yy i) * 0.1
        = ((∑ i ∈ Finset.range arangeLen, yy0 i) / normConst) * 0.1 := by
          unfold yy
          rw [← Finset.sum_div]
      _ = ((∑ i ∈ Finset.range arangeLen, yy0 i) * 0.1) / normConst := by
          ring
      _ = normConst / normConst := rfl
      _ = 1 := div_self hS

/-- C3 counterexample: the last grid point of `np.arange(-10., 10., 0.1)`
is 9.9, not 10.0 as the claim states. -/
theorem c3_last_point_not_ten : xx (arangeLen - 1) ≠ 10 := by
  rw [arangeLen_eq]
  norm_num [xx]

/-- C3 (amended): the grid has exactly 200 evenly spaced points with step
0.1; element `i` equals `-10.0 + 0.1 * i`, the first element is -10.0, and
the last is 9.9 (the stop value 10.0 is excluded, as `np.arange` excludes
its upper endpoint). -/
theorem c3_grid_amended :
    arangeLen = 200 ∧ (∀ i : ℕ, xx i = -10 + 0.1 * i) ∧
    xx 0 = -10 ∧ xx (arangeLen - 1) = 9.9 := by
  refine ⟨arangeLen_eq, fun i => rfl, by norm_num [xx], ?_⟩
  rw [arangeLen_eq]
  norm_num [xx]

/-- C4: curve B is proportional to the square root of curve A: the ratios
agree at any pair of indices where curve A is positive. -/
theorem c4_sqrt_proportional (i j : ℕ) (hj : 0 < curveA j) :
    yy i / yy j = Real.sqrt (curveA i) / Real.sqrt (curveA j) := by
  have hS : normConst ≠ 0 := ne_of_gt normConst_pos
  have hb : Real.sqrt (curveA j) ≠ 0 := ne_of_gt (Real.sqrt_pos.mpr hj)
  show (Real.sqrt (curveA i) / normConst) / (Real.sqrt (curveA j) / normConst)
      = Real.sqrt (curveA i) / Real.sqrt (curveA j)
  field_simp

/-- C4 witness: the proportionality instantiated at indices 0 and 0. -/
theorem c4_sqrt_proportional_witness :
    0 < curveA 0 ∧ yy 0 / yy 0 = Real.sqrt (curveA 0) / Real.sqrt (curveA 0) :=
  ⟨curveA_pos 0, c4_sqrt_proportional 0 0 (curveA_pos 0)⟩

/-- C7: every value of curve A and every value of curve B is nonnegative. -/
theorem c7_values_nonneg (i : ℕ) : 0 ≤ curveA i ∧ 0 ≤ yy i :=
  ⟨le_of_lt (curveA_pos i),
    div_nonneg (Real.sqrt_nonneg _) (le_of_lt normConst_pos)⟩

/-- C7 witness: nonnegativity at grid index 3. -/
theorem c7_values_nonneg_witness : 0 ≤ curveA 3 ∧ 0 ≤ yy 3 :=
  c7_values_nonneg 3

/-- C8: the normalization divisor `np.sum(yy) * 0.1` is strictly positive,
so the division has no failure path. -/
theorem c8_divisor_pos : 0 < normConst := normConst_pos

/-- C9: the computation is deterministic: any two runs of the code cell
return identical curves. -/
theorem c9_deterministic (u v : Unit) : computeCell u = computeCell v := rfl

/-- C9 witness: two concrete runs agree. -/
theorem c9_deterministic_witness : computeCell () = computeCell () :=
  c9_deterministic () ()

/-! Claim C2: the grid runs from -10.0 to 9.9, so it is not mapped to
itself by `x ↦ -x`; the pairing `i ↦ 199 - i` does not pair mirror-image
grid points.  At `i = 99` the pair is `x = -0.1` against `x = 0.0`, where
the density values differ by about 2e-3, far above floating-point
tolerance. -/

lemma curveA_99 : curveA 99 = Real.exp (-(1 / 200)) / Real.sqrt (2 * Real.pi) := by
  unfold curveA norm_pdf
  have hx : -(xx 99 ^ 2) / 2 = -(1 / 200) := by norm_num [xx]
  rw [hx]

lemma exp_neg_inv200_le : Real.exp (-(1 / 200) : ℝ) ≤ 200 / 201 := by
  have h1 : (201 / 200 : ℝ) ≤ Real.exp (1 / 200) := by
    have := Real.add_one_le_exp (1 / 200 : ℝ)
    linarith
  have h2 : Real.exp (-(1 / 200) : ℝ) = (Real.exp (1 / 200 : ℝ))⁻¹ :=
    Real.exp_neg _
  rw [h2, show (200 / 201 : ℝ) = (201 / 200 : ℝ)⁻¹ by norm_num]
  exact inv_anti₀ (by norm_num) h1

lemma curveA_gap : 1 / 1000 < curveA (199 - 99) - curveA 99 := by
  have h : (199 - 99 : ℕ) = 100 := by norm_num
  rw [h, curveA_100, curveA_99, div_sub_div_same, lt_div_iff₀ sqrt_two_pi_pos]
  nlinarith [sqrt_two_pi_lt, exp_neg_inv200_le, sqrt_two_pi_pos]

/-- C2 counterexample: at index `i = 99` the claimed mirror index is
`199 - 99 = 100`, but `curveA 99 = pdf(-0.1)` and `curveA 100 = pdf(0.0)`
differ by more than 1/1000 — far beyond floating-point tolerance. -/
theorem c2_not_symmetric :
    curveA 99 ≠ curveA (199 - 99) ∧ 1 / 1000 < curveA (199 - 99) - curveA 99 := by
  refine ⟨fun heq => ?_, curveA_gap⟩
  have h := curveA_gap
  rw [← heq] at h
  linarith

/-- C2 (amended): the density curve is symmetric under the index pairing
`i ↦ 200 - i` (for `1 ≤ i ≤ 199`), which pairs mirror-image grid points
`x` and `-x`; the grid point `-10.0` (index 0) has no mirror partner
because `+10.0` is excluded from the grid. -/
theorem c2_symmetry_amended (i : ℕ) (h1 : 1 ≤ i) (h2 : i ≤ 199) :
    curveA i = curveA (200 - i) := by
  unfold curveA norm_pdf
  have hx : xx (200 - i) = -(xx i) := by
    unfold xx
    have hc : ((200 - i : ℕ) : ℝ) = 200 - (i : ℝ) := by
      rw [Nat.cast_sub (by omega)]
      norm_num
    rw [hc]
    ring
  rw [hx, neg_sq]

/-- C2 witness: the amended symmetry at index 1 (grid points -9.9 and 9.9). -/
theorem c2_symmetry_amended_witness :
    ((1 : ℕ) ≤ 1 ∧ (1 : ℕ) ≤ 199) ∧ curveA 1 = curveA (200 - 1) :=
  ⟨⟨le_refl 1, by norm_num⟩, c2_symmetry_amended 1 (le_refl 1) (by norm_num)⟩

/-- C6: the grid contains the point 0.0 (at index 100); curve A attains its
maximum over all grid points there, and the maximum is approximately
0.3989. -/
theorem c6_peak_at_zero :
    xx 100 = 0 ∧ (∀ i : ℕ, curveA i ≤ curveA 100) ∧
    |curveA 100 - 0.3989| < 1 / 1000 := by
  refine ⟨xx_100, curveA_le_peak, ?_⟩
  have h0 := sqrt_two_pi_pos
  have hu := sqrt_two_pi_lt
  have hl := lt_sqrt_two_pi
  have hlow : (0.3979 : ℝ) < 1 / Real.sqrt (2 * Real.pi) := by
    rw [lt_div_iff₀ h0]
    nlinarith
  have hhigh : 1 / Real.sqrt (2 * Real.pi) < 0.3999 := by
    rw [div_lt_iff₀ h0]
    nlinarith
  rw [curveA_100, abs_lt]
  constructor <;> nlinarith

/-! Machinery for the quantitative Riemann-sum claims C5 and C10. -/

lemma sqZ_eq (x : ℤ) : sqZ x = x ^ 2 := by unfold sqZ; ring

lemma pw16_eq (x : ℤ) : pw16 x = x ^ 16 := by unfold pw16 sqZ; ring

lemma pw64_eq (x : ℤ) : pw64 x = x ^ 64 := by
  unfold pw64
  rw [pw16_eq]
  unfold sqZ
  ring

lemma pw1024_eq (x : ℤ) : pw1024 x = x ^ 1024 := by
  unfold pw1024
  rw [pw64_eq, pw16_eq, ← pow_mul]

lemma lo5Sum_eq (n : ℕ) : lo5Sum n = ∑ i ∈ Finset.range n, lo5 i := by
  induction n with
  | zero => rfl
  | succ n ih => rw [Finset.sum_range_succ, ← ih]; rfl

lemma hi5Sum_eq (n : ℕ) : hi5Sum n = ∑ i ∈ Finset.range n, hi5 i := by
  induction n with
  | zero => rfl
  | succ n ih => rw [Finset.sum_range_succ, ← ih]; rfl

lemma lo10Sum_eq (n : ℕ) : lo10Sum n = ∑ i ∈ Finset.range n, lo10 (70 + i) := by
  induction n with
  | zero => rfl
  | succ n ih => rw [Finset.sum_range_succ, ← ih]; rfl

set_option maxRecDepth 10000 in
lemma lo5_big : 2504133360 * pw1024 204800 ≤ 100000000 * lo5Sum 200 := by decide

set_option maxRecDepth 10000 in
lemma hi5_big : 1000000000 * hi5Sum 200 ≤ 25091336270 * pw64 327680000 := by decide

set_option maxRecDepth 10000 in
lemma lo10_big : 2506640 * pw16 6400 < 100000 * lo10Sum 61 := by decide

lemma one_sub_div_pow_le_exp_neg {a : ℝ} {m : ℕ} (_h0 : 0 ≤ a) (hm : a ≤ m)
    (hmp : 0 < m) : (1 - a / m) ^ m ≤ Real.exp (-a) := by
  have hm0 : (0 : ℝ) < m := Nat.cast_pos.mpr hmp
  have h1 : 0 ≤ 1 - a / m := by
    rw [sub_nonneg, div_le_one hm0]
    exact hm
  have h2 : 1 - a / m ≤ Real.exp (-(a / m)) := by
    have := Real.add_one_le_exp (-(a / m))
    linarith
  calc (1 - a / m) ^ m ≤ Real.exp (-(a / m)) ^ m := pow_le_pow_left₀ h1 h2 m
    _ = Real.exp (-a) := by
        rw [← Real.exp_nat_mul]
        congr 1
        field_simp
        ring

lemma exp_neg_le_quad {t : ℝ} (h : 0 ≤ t) :
    Real.exp (-t) ≤ 1 - t + t ^ 2 / 2 := by
  have hq : (0 : ℝ) < 1 + t + t ^ 2 / 2 := by nlinarith
  have hsum : ∑ i ∈ Finset.range 3, t ^ i / (Nat.factorial i : ℝ)
      = 1 + t + t ^ 2 / 2 := by
    rw [Finset.sum_range_succ, Finset.sum_range_succ, Finset.sum_range_one]
    norm_num [Nat.factorial]
  have he : 1 + t + t ^ 2 / 2 ≤ Real.exp t := by
    have h3 := Real.sum_le_exp_of_nonneg h 3
    linarith [h3, hsum.ge]
  have hinv : Real.exp (-t) ≤ (1 + t + t ^ 2 / 2)⁻¹ := by
    rw [Real.exp_neg]
    exact inv_anti₀ hq he
  refine hinv.trans ?_
  rw [inv_eq_one_div, div_le_iff₀ hq]
  nlinarith [sq_nonneg (t ^ 2), sq_nonneg t]

lemma exp_neg_le_quad_pow {a : ℝ} {m : ℕ} (h0 : 0 ≤ a) (hmp : 0 < m) :
    Real.exp (-a) ≤ (1 - a / m + (a / m) ^ 2 / 2) ^ m := by
  have hm0 : (0 : ℝ) < m := Nat.cast_pos.mpr hmp
  have ht : 0 ≤ a / m := by positivity
  have h1 : Real.exp (-(a / m)) ≤ 1 - a / m + (a / m) ^ 2 / 2 :=
    exp_neg_le_quad ht
  calc Real.exp (-a) = Real.exp (-(a / m)) ^ m := by
        rw [← Real.exp_nat_mul]
        congr 1
        field_simp
        ring
    _ ≤ (1 - a / m + (a / m) ^ 2 / 2) ^ m :=
        pow_le_pow_left₀ (Real.exp_nonneg _) h1 m

lemma xx_sq (i : ℕ) : xx i ^ 2 / 2 = ((i : ℝ) - 100) ^ 2 / 200 := by
  unfold xx
  ring

lemma lo5_le (i : ℕ) (hi : i < 200) :
    ((lo5 i : ℤ) : ℝ) / 204800 ^ 1024 ≤ Real.exp (-(xx i ^ 2) / 2) := by
  have hile : (i : ℝ) ≤ 199 := by exact_mod_cast Nat.lt_succ_iff.mp hi
  have hi0 : (0 : ℝ) ≤ (i : ℝ) := Nat.cast_nonneg i
  have ha0 : 0 ≤ xx i ^ 2 / 2 := by positivity
  have ham : xx i ^ 2 / 2 ≤ ((1024 : ℕ) : ℝ) := by
    rw [xx_sq]
    push_cast
    nlinarith
  have hb := one_sub_div_pow_le_exp_neg ha0 ham (by norm_num)
  have harg : -(xx i ^ 2 / 2) = -(xx i ^ 2) / 2 := by ring
  rw [harg] at hb
  have hcast : ((lo5 i : ℤ) : ℝ) = (204800 - ((i : ℝ) - 100) ^ 2) ^ 1024 := by
    unfold lo5
    rw [pw1024_eq, sqZ_eq]
    push_cast
    rfl
  have heq : (1 - xx i ^ 2 / 2 / ((1024 : ℕ) : ℝ)) ^ 1024
      = ((lo5 i : ℤ) : ℝ) / 204800 ^ 1024 := by
    rw [hcast, ← div_pow]
    congr 1
    rw [xx_sq]
    push_cast
    ring
  rw [heq] at hb
  exact hb

lemma hi5_ge (i : ℕ) :
    Real.exp (-(xx i ^ 2) / 2) ≤ ((hi5 i : ℤ) : ℝ) / 327680000 ^ 64 := by
  have ha0 : 0 ≤ xx i ^ 2 / 2 := by positivity
  have hb := exp_neg_le_quad_pow (m := 64) ha0 (by norm_num)
  have harg : -(xx i ^ 2 / 2) = -(xx i ^ 2) / 2 := by ring
  rw [harg] at hb
  have hcast : ((hi5 i : ℤ) : ℝ)
      = (327680000 - 25600 * ((i : ℝ) - 100) ^ 2 + (((i : ℝ) - 100) ^ 2) ^ 2) ^ 64 := by
    unfold hi5
    rw [pw64_eq]
    simp only [sqZ_eq]
    push_cast
    rfl
  have heq : (1 - xx i ^ 2 / 2 / ((64 : ℕ) : ℝ)
      + (xx i ^ 2 / 2 / ((64 : ℕ) : ℝ)) ^ 2 / 2) ^ 64
      = ((hi5 i : ℤ) : ℝ) / 327680000 ^ 64 := by
    rw [hcast, ← div_pow]
    congr 1
    rw [xx_sq]
    push_cast
    ring
  rw [heq] at hb
  exact hb

lemma exp_sum_lower :
    ((lo5Sum 200 : ℤ) : ℝ) / 204800 ^ 1024 ≤
      ∑ i ∈ Finset.range 200, Real.exp (-(xx i ^ 2) / 2) := by
  rw [lo5Sum_eq]
  push_cast
  rw [Finset.sum_div]
  exact Finset.sum_le_sum fun i hi => lo5_le i (Finset.mem_range.mp hi)

lemma exp_sum_upper :
    (∑ i ∈ Finset.range 200, Real.exp (-(xx i ^ 2) / 2)) ≤
      ((hi5Sum 200 : ℤ) : ℝ) / 327680000 ^ 64 := by
  rw [hi5Sum_eq]
  push_cast
  rw [Finset.sum_div]
  exact Finset.sum_le_sum fun i _ => hi5_ge i

lemma sumA_eq :
    (∑ i ∈ Finset.range 200, curveA i) =
      (∑ i ∈ Finset.range 200, Real.exp (-(xx i ^ 2) / 2)) /
        Real.sqrt (2 * Real.pi) := by
  rw [Finset.sum_div]
  rfl

/-- C5: the Riemann sum of curve A over the grid approximates 1:
`sum(curveA) * 0.1` lies within 1/1000 of 1. -/
theorem c5_riemann_sum_near_one :
    |(∑ i ∈ Finset.range arangeLen, curveA i) * 0.1 - 1| ≤ 1 / 1000 := by
  rw [arangeLen_eq, sumA_eq]
  set E := ∑ i ∈ Finset.range 200, Real.exp (-(xx i ^ 2) / 2) with hE
  have hs0 := sqrt_two_pi_pos
  have hsu := sqrt_two_pi_lt
  have hsl := lt_sqrt_two_pi
  have hDl : (0 : ℝ) < (204800 : ℝ) ^ 1024 := by positivity
  have hDu : (0 : ℝ) < (327680000 : ℝ) ^ 64 := by positivity
  have hpwl : ((pw1024 204800 : ℤ) : ℝ) = (204800 : ℝ) ^ 1024 := by
    rw [pw1024_eq]
    push_cast
    ring
  have hpwu : ((pw64 327680000 : ℤ) : ℝ) = (327680000 : ℝ) ^ 64 := by
    rw [pw64_eq]
    push_cast
    ring
  have hl : (2504133360 : ℝ) * (204800 : ℝ) ^ 1024
      ≤ 100000000 * ((lo5Sum 200 : ℤ) : ℝ) := by
    rw [← hpwl]
    exact_mod_cast lo5_big
  have hu : (1000000000 : ℝ) * ((hi5Sum 200 : ℤ) : ℝ)
      ≤ 25091336270 * (327680000 : ℝ) ^ 64 := by
    rw [← hpwu]
    exact_mod_cast hi5_big
  have hEl : (2504133360 : ℝ) / 100000000 ≤ E := by
    refine le_trans ?_ exp_sum_lower
    rw [div_le_div_iff₀ (by norm_num) hDl]
    linarith
  have hEu : E ≤ (25091336270 : ℝ) / 1000000000 := by
    refine le_trans exp_sum_upper ?_
    rw [div_le_div_iff₀ hDu (by norm_num)]
    linarith
  have hlow : (0.999 : ℝ) ≤ E / Real.sqrt (2 * Real.pi) * 0.1 := by
    rw [div_mul_eq_mul_div, le_div_iff₀ hs0]
    nlinarith
  have hhigh : E / Real.sqrt (2 * Real.pi) * 0.1 ≤ (1.001 : ℝ) := by
    rw [div_mul_eq_mul_div, div_le_iff₀ hs0]
    nlinarith
  rw [abs_le]
  constructor <;> linarith

/-! Machinery for C10: curve B in closed form.  Taking the square root of
the density halves the exponent, so the unnormalized curve B is a wider
Gaussian over the fourth root of 2*pi. -/

lemma sqrt_exp_half (x : ℝ) : Real.sqrt (Real.exp x) = Real.exp (x / 2) := by
  have h : Real.exp x = Real.exp (x / 2) ^ 2 := by
    rw [sq, ← Real.exp_add]
    congr 1
    ring
  rw [h, Real.sqrt_sq (Real.exp_nonneg _)]

lemma yy0_eq (i : ℕ) :
    yy0 i = Real.exp (-(xx i ^ 2) / 2 / 2) /
      Real.sqrt (Real.sqrt (2 * Real.pi)) := by
  unfold yy0 norm_pdf
  rw [Real.sqrt_div (Real.exp_nonneg _), sqrt_exp_half]

lemma lo10_le (i : ℕ) (h1 : 70 ≤ i) (h2 : i ≤ 130) :
    ((lo10 i : ℤ) : ℝ) / 6400 ^ 16 ≤ Real.exp (-(xx i ^ 2) / 2 / 2) := by
  have hl : (70 : ℝ) ≤ (i : ℝ) := by exact_mod_cast h1
  have hr : (i : ℝ) ≤ 130 := by exact_mod_cast h2
  have ha0 : 0 ≤ xx i ^ 2 / 4 := by positivity
  have ham : xx i ^ 2 / 4 ≤ ((16 : ℕ) : ℝ) := by
    have hx : xx i ^ 2 / 4 = ((i : ℝ) - 100) ^ 2 / 400 := by
      unfold xx
      ring
    rw [hx]
    push_cast
    nlinarith
  have hb := one_sub_div_pow_le_exp_neg ha0 ham (by norm_num)
  have harg : -(xx i ^ 2 / 4) = -(xx i ^ 2) / 2 / 2 := by ring
  rw [harg] at hb
  have hcast : ((lo10 i : ℤ) : ℝ) = (6400 - ((i : ℝ) - 100) ^ 2) ^ 16 := by
    unfold lo10
    rw [pw16_eq, sqZ_eq]
    push_cast
    rfl
  have heq : (1 - xx i ^ 2 / 4 / ((16 : ℕ) : ℝ)) ^ 16
      = ((lo10 i : ℤ) : ℝ) / 6400 ^ 16 := by
    rw [hcast, ← div_pow]
    congr 1
    unfold xx
    push_cast
    ring
  rw [heq] at hb
  exact hb

lemma c10_sum_lower :
    (2.50664 : ℝ) <
      (∑ i ∈ Finset.range 200, Real.exp (-(xx i ^ 2) / 2 / 2)) * 0.1 := by
  have hsub : ∑ i ∈ Finset.Ico 70 131, Real.exp (-(xx i ^ 2) / 2 / 2) ≤
      ∑ i ∈ Finset.range 200, Real.exp (-(xx i ^ 2) / 2 / 2) := by
    apply Finset.sum_le_sum_of_subset_of_nonneg
    · rw [Finset.range_eq_Ico]
      exact Finset.Ico_subset_Ico (by norm_num) (by norm_num)
    · intro i _ _
      exact Real.exp_nonneg _
  have hIco : ∑ i ∈ Finset.Ico 70 131, Real.exp (-(xx i ^ 2) / 2 / 2)
      = ∑ j ∈ Finset.range 61, Real.exp (-(xx (70 + j) ^ 2) / 2 / 2) := by
    rw [Finset.sum_Ico_eq_sum_range]
  have hterm : ((lo10Sum 61 : ℤ) : ℝ) / 6400 ^ 16 ≤
      ∑ j ∈ Finset.range 61, Real.exp (-(xx (70 + j) ^ 2) / 2 / 2) := by
    rw [lo10Sum_eq]
    push_cast
    rw [Finset.sum_div]
    refine Finset.sum_le_sum fun j hj => ?_
    have hj61 : j < 61 := Finset.mem_range.mp hj
    exact lo10_le (70 + j) (by omega) (by omega)
  have hpw : ((pw16 6400 : ℤ) : ℝ) = (6400 : ℝ) ^ 16 := by
    rw [pw16_eq]
    push_cast
    norm_num
  have hD : (0 : ℝ) < (6400 : ℝ) ^ 16 := by positivity
  have hint : (2506640 : ℝ) * (6400 : ℝ) ^ 16
      < 100000 * ((lo10Sum 61 : ℤ) : ℝ) := by
    rw [← hpw]
    exact_mod_cast lo10_big
  have hq : (2.50664 : ℝ) < ((lo10Sum 61 : ℤ) : ℝ) / 6400 ^ 16 := by
    rw [lt_div_iff₀ hD]
    nlinarith
  nlinarith [hsub, hIco.ge, hterm, hq]

lemma yy_lt_peakA (i : ℕ) : yy i < curveA 100 := by
  have hS := normConst_pos
  have hq0 : 0 < Real.sqrt (Real.sqrt (2 * Real.pi)) :=
    Real.sqrt_pos.mpr sqrt_two_pi_pos
  have hq2 : Real.sqrt (Real.sqrt (2 * Real.pi)) ^ 2 = Real.sqrt (2 * Real.pi) :=
    Real.sq_sqrt (le_of_lt sqrt_two_pi_pos)
  have hSval : normConst =
      (∑ i ∈ Finset.range 200, Real.exp (-(xx i ^ 2) / 2 / 2)) /
        Real.sqrt (Real.sqrt (2 * Real.pi)) * 0.1 := by
    unfold normConst
    rw [arangeLen_eq]
    congr 1
    rw [Finset.sum_div]
    exact Finset.sum_congr rfl fun j _ => yy0_eq j
  have hgt : Real.sqrt (Real.sqrt (2 * Real.pi)) < normConst := by
    rw [hSval, div_mul_eq_mul_div, lt_div_iff₀ hq0]
    have h1 := c10_sum_lower
    have h2 := sqrt_two_pi_lt
    nlinarith [hq2]
  have h1 : yy i ≤ yy 100 := by
    unfold yy
    have hmono : yy0 i ≤ yy0 100 := Real.sqrt_le_sqrt (curveA_le_peak i)
    exact (div_le_div_iff_of_pos_right hS).mpr hmono
  have h2 : yy 100 < curveA 100 := by
    show yy0 100 / normConst < curveA 100
    rw [div_lt_iff₀ hS]
    have hy100 : yy0 100 = 1 / Real.sqrt (Real.sqrt (2 * Real.pi)) := by
      unfold yy0
      rw [show norm_pdf (xx 100) = 1 / Real.sqrt (2 * Real.pi) from curveA_100,
        Real.sqrt_div' 1 (Real.sqrt_nonneg _), Real.sqrt_one]
    rw [hy100, curveA_100]
    have hrw : 1 / Real.sqrt (2 * Real.pi) * normConst
        = normConst / Real.sqrt (Real.sqrt (2 * Real.pi)) ^ 2 := by
      rw [hq2]
      ring
    rw [hrw, div_lt_div_iff₀ hq0 (by positivity)]
    nlinarith [hgt, hq0]
  exact lt_of_le_of_lt h1 h2

/-- C10: the peak of the normalized curve B over the grid is strictly
lower than the peak of curve A over the grid: square-root reweighting
followed by renormalization softens the maximum. -/
theorem c10_peak_softened :
    (Finset.range arangeLen).sup' ⟨0, by simp [arangeLen_eq]⟩ yy <
      (Finset.range arangeLen).sup' ⟨0, by simp [arangeLen_eq]⟩ curveA := by
  have hstep : (Finset.range arangeLen).sup' ⟨0, by simp [arangeLen_eq]⟩ yy
      < curveA 100 := by
    rw [Finset.sup'_lt_iff]
    intro i _
    exact yy_lt_peakA i
  refine lt_of_lt_of_le hstep ?_
  exact Finset.le_sup' curveA
    (Finset.mem_range.mpr (by rw [arangeLen_eq]; norm_num))

end AdvancedSampling
